import Mathlib

/-!
Shallow embedding of the 1D two-stream-instability PIC simulator
(`simulation.py`).  Machine floats are modelled by exact rationals; the
scipy sparse solve `spsolve(Lmtx, rhs)` is an external library call and is
modelled by an abstract `solve : List Rat -> List Rat` parameter.
-/

namespace PIC

/-- Mesh spacing, `dx = boxsize / Nx` (`simulation.py` line 32 / 105). -/
def dxOf (Nx : ℕ) (boxsize : ℚ) : ℚ := boxsize / (Nx : ℚ)

/-- Gradient matrix entry, from `Gmtx = sp.diags([-1, 1], [0, 1], shape=(Nx, Nx)) / dx`
(`simulation.py` line 106): value `-1` on the main diagonal, `+1` on the
superdiagonal, everything else zero, all divided by `dx`.  The formula below
agrees with the scipy matrix on every index pair `i k` with `i < Nx`,
`k < Nx` (for `Nx` at least 2; scipy rejects `Nx = 1` because the offset-1
diagonal would be empty).  Note that, unlike `Lmtx`, no wrap-around corner
term is added to `Gmtx` anywhere in `create_matrices`. -/
def Gmtx (Nx : ℕ) (boxsize : ℚ) (i k : ℕ) : ℚ :=
  ((if k = i then (-1 : ℚ) else 0) + (if k = i + 1 then 1 else 0)) / dxOf Nx boxsize

/-- Numerator (stencil value before the `1/dx^2` scaling) of the Laplacian
matrix built in `simulation.py` lines 107-108:
`sp.diags([1, -2, 1], [-1, 0, 1])` contributes the first three terms and the
corner matrix `sp.diags([1, 1], [-Nx + 1, Nx - 1])` contributes the last two
(offset `-Nx+1` places a `1` at row `k + (Nx-1)`, column `k`; offset `Nx-1`
places a `1` at row `i`, column `i + (Nx-1)`). -/
def LmtxNum (Nx i k : ℕ) : ℚ :=
  (if k + 1 = i then (1 : ℚ) else 0) + (if k = i then -2 else 0)
    + (if k = i + 1 then 1 else 0)
    + (if i = k + (Nx - 1) then 1 else 0) + (if k = i + (Nx - 1) then 1 else 0)

/-- Laplacian matrix entry (`simulation.py` lines 107-108): the five-diagonal
stencil scaled by `1/dx^2`. -/
def Lmtx (Nx : ℕ) (boxsize : ℚ) (i k : ℕ) : ℚ :=
  LmtxNum Nx i k / (dxOf Nx boxsize) ^ 2

/-- Stencil value asserted by the specification for the Laplacian row `i`:
`+1` at column `(i-1) mod Nx`, `-2` at column `i`, `+1` at column
`(i+1) mod Nx` (here `(i-1) mod Nx` is written `(i + (Nx-1)) % Nx` to stay
in natural numbers).  Used to compare the built matrix against the spec. -/
def stencilClaim (Nx i k : ℕ) : ℚ :=
  if k = (i + (Nx - 1)) % Nx then 1
  else if k = i then -2
  else if k = (i + 1) % Nx then 1
  else 0

/-- Left mesh node of a particle, `j = np.floor(pos/dx).astype(int)`
(`simulation.py` line 33).  Note the result is NOT reduced mod `Nx`. -/
def jIdx (dx p : ℚ) : ℤ := ⌊p / dx⌋

/-- Right mesh node after the periodic wrap, `jp1 = np.mod(j+1, Nx)`
(`simulation.py` lines 34 and 37). -/
def jp1Idx (Nx : ℕ) (dx p : ℚ) : ℤ := (jIdx dx p + 1) % (Nx : ℤ)

/-- Left-node weight, `weight_j = (jp1*dx - pos)/dx` computed with the
unwrapped `jp1 = j + 1` (`simulation.py` line 35). -/
def wLeft (dx p : ℚ) : ℚ := (((jIdx dx p : ℚ) + 1) * dx - p) / dx

/-- Right-node weight, `weight_jp1 = (pos - j*dx)/dx` (`simulation.py` line 36). -/
def wRight (dx p : ℚ) : ℚ := (p - (jIdx dx p : ℚ) * dx) / dx

/-- One slot of `np.bincount(idx, weights=w, minlength=Nx)`: the sum of the
weights of the entries whose index equals `k` (`simulation.py` lines 38-39). -/
def bincountAt (idx : List ℤ) (w : List ℚ) (k : ℕ) : ℚ :=
  (List.zipWith (fun i x => if i = (k : ℤ) then x else 0) idx w).sum

/-- Unscaled deposited density at node `k`: the two bincount accumulations of
`simulation.py` lines 38-39. -/
def rawDensity (Nx : ℕ) (dx : ℚ) (pos : List ℚ) (k : ℕ) : ℚ :=
  bincountAt (pos.map (jIdx dx)) (pos.map (wLeft dx)) k
    + bincountAt (pos.map (jp1Idx Nx dx)) (pos.map (wRight dx)) k

/-- Density at node `k` after the normalisation `n *= n0 * boxsize / N / dx`
(`simulation.py` line 40). -/
def density (Nx : ℕ) (boxsize n0 : ℚ) (pos : List ℚ) (k : ℕ) : ℚ :=
  rawDensity Nx (dxOf Nx boxsize) pos k
    * (n0 * boxsize / (pos.length : ℚ) / dxOf Nx boxsize)

/-- Electric field at node `i`, `E_grid = - Gmtx @ phi_grid`
(`simulation.py` line 46): minus the `i`-th row of `Gmtx` dotted with `phi`. -/
def Efield (Nx : ℕ) (boxsize : ℚ) (phi : ℕ → ℚ) (i : ℕ) : ℚ :=
  -(∑ k in Finset.range Nx, Gmtx Nx boxsize i k * phi k)

/-- The whole of `getAcc` (`simulation.py` lines 17-53): deposit the density,
solve Poisson with the external sparse solver (`solve` models
`spsolve(Lmtx, n - n0)`), differentiate to get the grid field, gather the
field at each particle with the deposition weights, negate. -/
def getAcc (solve : List ℚ → List ℚ) (pos : List ℚ) (Nx : ℕ)
    (boxsize n0 : ℚ) : List ℚ :=
  let dx := dxOf Nx boxsize
  let nArr : List ℚ := (List.range Nx).map (fun k => density Nx boxsize n0 pos k)
  let phi : List ℚ := solve (nArr.map (fun x => x - n0))
  let Egrid : List ℚ :=
    (List.range Nx).map (fun i => Efield Nx boxsize (fun k => phi.getD k 0) i)
  let E : List ℚ := (List.range pos.length).map (fun i =>
    let p := pos.getD i 0
    wLeft dx p * Egrid.getD (jIdx dx p).toNat 0
      + wRight dx p * Egrid.getD (jp1Idx Nx dx p).toNat 0)
  E.map (fun e => -e)

/-- Rational counterpart of `np.mod(x, b)` for real arguments:
`x - b * floor(x / b)` (used for positions in `simulation.py` line 90). -/
def npMod (x b : ℚ) : ℚ := x - b * (⌊x / b⌋ : ℚ)

/-- Body of the driver loop (`simulation.py` lines 82-90), transcribed in
source order: compute `a = getAcc(pos, ...)`, then `pos += dt * vel`, then
`vel += dt * a`, then `pos = np.mod(pos, boxsize)`. -/
def stepOnce (solve : List ℚ → List ℚ) (dt boxsize : ℚ) (Nx : ℕ) (n0 : ℚ)
    (pos vel : List ℚ) : List ℚ × List ℚ :=
  let a := getAcc solve pos Nx boxsize n0
  let pos1 := List.zipWith (fun p v => p + dt * v) pos vel
  let vel1 := List.zipWith (fun v x => v + dt * x) vel a
  let pos2 := pos1.map (fun p => npMod p boxsize)
  (pos2, vel1)

/-- Simulation configuration (`simulation.py` lines 60-65); the source
hard-codes one instance, the fields are the tunable constants of `main`. -/
structure Config where
  N : ℤ
  Nx : ℤ
  boxsize : ℚ
  dt : ℚ
  tEnd : ℚ

/-- Control skeleton of the driver loop `while t < tEnd: ...; t += dt`
(`simulation.py` lines 81-93), counting how many loop bodies execute; `fuel`
bounds the recursion.  `main` runs this unconditionally: no validation of
the configuration precedes it. -/
def stepsTaken (fuel : ℕ) (t dt tEnd : ℚ) : ℕ :=
  match fuel with
  | 0 => 0
  | Nat.succ f => if t < tEnd then stepsTaken f (t + dt) dt tEnd + 1 else 0

/-- A configuration the specification calls invalid: non-positive
`N`, `Nx`, `boxsize` or `dt`, or negative `tEnd`. -/
def invalidConfig (c : Config) : Prop :=
  c.N ≤ 0 ∨ c.Nx ≤ 0 ∨ c.boxsize ≤ 0 ∨ c.dt ≤ 0 ∨ c.tEnd < 0

/-- The source configuration with `dt` made negative: invalid per the spec. -/
def badCfg : Config := ⟨40000, 400, 50, -1, 50⟩

/-- The source configuration with `N` made negative: invalid per the spec. -/
def badCfg2 : Config := ⟨-5, 400, 50, 1, 50⟩

/-- Mutable simulation state owned by the driver: the particle ensemble
(`pos`, `vel` arrays of `simulation.py` lines 75-76). -/
structure PState where
  pos : List ℚ
  vel : List ℚ

/-- Effectful view of `getAcc` acting on the driver state: the body of
`getAcc` (lines 31-53) only binds locals (`N`, `dx`, `j`, `jp1`, `weight_j`,
`weight_jp1`, `n`, `phi_grid`, `E_grid`, `E`, `a`); no statement assigns to
the `pos` buffer or to `vel`, so the state component passes through. -/
def getAccEff (solve : List ℚ → List ℚ) (Nx : ℕ) (boxsize n0 : ℚ)
    (s : PState) : List ℚ × PState :=
  let dx := dxOf Nx boxsize
  let nArr : List ℚ := (List.range Nx).map (fun k => density Nx boxsize n0 s.pos k)
  let phi : List ℚ := solve (nArr.map (fun x => x - n0))
  let Egrid : List ℚ :=
    (List.range Nx).map (fun i => Efield Nx boxsize (fun k => phi.getD k 0) i)
  let E : List ℚ := (List.range s.pos.length).map (fun i =>
    let p := s.pos.getD i 0
    wLeft dx p * Egrid.getD (jIdx dx p).toNat 0
      + wRight dx p * Egrid.getD (jp1Idx Nx dx p).toNat 0)
  (E.map (fun e => -e), s)

/-- A probe potential that is `1` at node 0 and `0` elsewhere. -/
def phiProbe : ℕ → ℚ := fun k => if k = 0 then 1 else 0

/-! ## Helper lemmas -/

lemma pred_mod (Nx i : ℕ) (h1 : i < Nx) :
    (i + (Nx - 1)) % Nx = if i = 0 then Nx - 1 else i - 1 := by
  rcases Nat.eq_zero_or_pos i with h0 | h0
  · subst h0
    simp [Nat.mod_eq_of_lt (by omega : Nx - 1 < Nx)]
  · have he : i + (Nx - 1) = Nx + (i - 1) := by omega
    rw [he, Nat.add_mod_left, Nat.mod_eq_of_lt (by omega), if_neg (by omega)]

lemma succ_mod (Nx i : ℕ) (h1 : i < Nx) :
    (i + 1) % Nx = if i + 1 = Nx then 0 else i + 1 := by
  split_ifs with h
  · rw [h, Nat.mod_self]
  · exact Nat.mod_eq_of_lt (by omega)

lemma LmtxNum_eq_stencilClaim (Nx i k : ℕ) (h3 : 3 ≤ Nx) (hi : i < Nx)
    (hk : k < Nx) : LmtxNum Nx i k = stencilClaim Nx i k := by
  unfold LmtxNum stencilClaim
  rw [pred_mod Nx i hi, succ_mod Nx i hi]
  split_ifs <;> (first | (exfalso; omega) | norm_num)

lemma sum_range_ite_int (Nx : ℕ) (j : ℤ) (c : ℚ) :
    (∑ k in Finset.range Nx, if j = (k : ℤ) then c else 0)
      = if 0 ≤ j ∧ j < (Nx : ℤ) then c else 0 := by
  induction Nx with
  | zero => rw [Finset.sum_range_zero, if_neg (by omega)]
  | succ n ih =>
      rw [Finset.sum_range_succ, ih]
      split_ifs <;> (first | (exfalso; omega) | norm_num)

lemma bincountAt_cons (a : ℤ) (x : ℚ) (idx : List ℤ) (w : List ℚ) (k : ℕ) :
    bincountAt (a :: idx) (x :: w) k
      = (if a = (k : ℤ) then x else 0) + bincountAt idx w k := by
  simp [bincountAt]

lemma sum_bincountAt (Nx : ℕ) :
    ∀ (idx : List ℤ) (w : List ℚ), idx.length = w.length →
      (∀ j ∈ idx, 0 ≤ j ∧ j < (Nx : ℤ)) →
      (∑ k in Finset.range Nx, bincountAt idx w k) = w.sum := by
  intro idx
  induction idx with
  | nil =>
      intro w hlen _
      have hw : w = [] := by
        cases w with
        | nil => rfl
        | cons a l => simp at hlen
      subst hw
      simp [bincountAt]
  | cons a idx ih =>
      intro w hlen hmem
      cases w with
      | nil => simp at hlen
      | cons x w =>
          have hlen2 : idx.length = w.length := by simpa using hlen
          have hmem2 : ∀ j ∈ idx, 0 ≤ j ∧ j < (Nx : ℤ) := by
            intro j hj; exact hmem j (List.mem_cons_of_mem a hj)
          have ha : 0 ≤ a ∧ a < (Nx : ℤ) := hmem a (List.mem_cons_self a idx)
          simp only [bincountAt_cons]
          rw [Finset.sum_add_distrib, ih w hlen2 hmem2, sum_range_ite_int,
            if_pos ha, List.sum_cons]

lemma sum_map_add_one (f g : ℚ → ℚ) :
    ∀ pos : List ℚ, (∀ p ∈ pos, f p + g p = 1) →
      (pos.map f).sum + (pos.map g).sum = (pos.length : ℚ) := by
  intro pos
  induction pos with
  | nil => intro _; simp
  | cons a l ih =>
      intro h
      have ha : f a + g a = 1 := h a (List.mem_cons_self a l)
      have hl : (l.map f).sum + (l.map g).sum = (l.length : ℚ) :=
        ih (fun p hp => h p (List.mem_cons_of_mem a hp))
      simp only [List.map_cons, List.sum_cons, List.length_cons]
      push_cast
      linarith

lemma jIdx_range (Nx : ℕ) (b p : ℚ) (hNx : 0 < Nx) (hb : 0 < b)
    (h0 : 0 ≤ p) (h1 : p < b) :
    0 ≤ jIdx (dxOf Nx b) p ∧ jIdx (dxOf Nx b) p < (Nx : ℤ) := by
  have hNxQ : (0 : ℚ) < (Nx : ℚ) := by exact_mod_cast hNx
  have hdx : 0 < dxOf Nx b := div_pos hb hNxQ
  constructor
  · exact Int.floor_nonneg.mpr (div_nonneg h0 hdx.le)
  · apply Int.floor_lt.mpr
    push_cast
    rw [div_lt_iff₀ hdx]
    have hbe : (Nx : ℚ) * dxOf Nx b = b := by
      rw [dxOf]; field_simp
    rw [hbe]; exact h1

lemma jp1Idx_range (Nx : ℕ) (dx p : ℚ) (hNx : 0 < Nx) :
    0 ≤ jp1Idx Nx dx p ∧ jp1Idx Nx dx p < (Nx : ℤ) := by
  have hz : ((Nx : ℤ)) ≠ 0 := by exact_mod_cast hNx.ne'
  have hp : (0 : ℤ) < (Nx : ℤ) := by exact_mod_cast hNx
  exact ⟨Int.emod_nonneg _ hz, Int.emod_lt_of_pos _ hp⟩

lemma wSum (dx p : ℚ) (hdx : dx ≠ 0) : wLeft dx p + wRight dx p = 1 := by
  unfold wLeft wRight
  field_simp
  ring

lemma density_sum (Nx : ℕ) (b n0 : ℚ) (pos : List ℚ) (hNx : 0 < Nx)
    (hb : 0 < b) (hne : pos ≠ []) (hin : ∀ p ∈ pos, 0 ≤ p ∧ p < b) :
    (∑ k in Finset.range Nx, density Nx b n0 pos k) = n0 * (Nx : ℚ) := by
  have hNxQ : ((Nx : ℚ)) ≠ 0 := by
    exact_mod_cast hNx.ne'
  have hdx : dxOf Nx b ≠ 0 := by
    rw [dxOf]; exact div_ne_zero hb.ne' hNxQ
  have hraw : (∑ k in Finset.range Nx, rawDensity Nx (dxOf Nx b) pos k)
      = (pos.length : ℚ) := by
    unfold rawDensity
    rw [Finset.sum_add_distrib,
      sum_bincountAt Nx _ _ (by simp) (by
        intro j hj
        obtain ⟨p, hp, rfl⟩ := List.mem_map.mp hj
        exact jIdx_range Nx b p hNx hb (hin p hp).1 (hin p hp).2),
      sum_bincountAt Nx _ _ (by simp) (by
        intro j hj
        obtain ⟨p, hp, rfl⟩ := List.mem_map.mp hj
        exact jp1Idx_range Nx (dxOf Nx b) p hNx)]
    exact sum_map_add_one _ _ pos (fun p _ => wSum (dxOf Nx b) p hdx)
  unfold density
  rw [← Finset.sum_mul, hraw]
  have hlen : ((pos.length : ℚ)) ≠ 0 := by
    have hl0 : pos.length ≠ 0 := by
      intro h; exact hne (List.eq_nil_of_length_eq_zero h)
    exact_mod_cast hl0
  rw [dxOf]
  field_simp
  ring

lemma Gmtx_colsum (Nx : ℕ) (b : ℚ) (k : ℕ) (hk : k < Nx) :
    (∑ i in Finset.range Nx, Gmtx Nx b i k)
      = if k = 0 then -1 / dxOf Nx b else 0 := by
  unfold Gmtx
  rw [← Finset.sum_div, Finset.sum_add_distrib]
  have h1 : (∑ i in Finset.range Nx, if k = i then (-1 : ℚ) else 0) = -1 := by
    rw [Finset.sum_ite_eq]
    simp [Finset.mem_range.mpr hk]
  have h2 : (∑ i in Finset.range Nx, if k = i + 1 then (1 : ℚ) else 0)
      = if k = 0 then 0 else 1 := by
    cases k with
    | zero =>
        rw [if_pos rfl, Finset.sum_eq_zero]
        intro i _
        rw [if_neg (by omega)]
    | succ m =>
        rw [if_neg (by omega)]
        have hms : ∀ i ∈ Finset.range Nx,
            (if m + 1 = i + 1 then (1 : ℚ) else 0) = if m = i then 1 else 0 := by
          intro i _
          by_cases h : m = i
          · rw [if_pos h, if_pos (by omega)]
          · rw [if_neg h, if_neg (by omega)]
        rw [Finset.sum_congr rfl hms, Finset.sum_ite_eq]
        simp [Finset.mem_range.mpr (by omega : m < Nx)]
  rw [h1, h2]
  split_ifs <;> norm_num

lemma getD_zipWith (f : ℚ → ℚ → ℚ) :
    ∀ (l1 l2 : List ℚ) (i : ℕ), i < l1.length → i < l2.length →
      (List.zipWith f l1 l2).getD i 0 = f (l1.getD i 0) (l2.getD i 0) := by
  intro l1
  induction l1 with
  | nil => intro l2 i h1 _; simp at h1
  | cons a l ih =>
      intro l2 i h1 h2
      cases l2 with
      | nil => simp at h2
      | cons c l2 =>
          cases i with
          | zero => simp
          | succ n =>
              simp only [List.zipWith_cons_cons, List.getD_cons_succ]
              exact ih l2 n (by simpa using h1) (by simpa using h2)

lemma getD_map (f : ℚ → ℚ) :
    ∀ (l : List ℚ) (i : ℕ), i < l.length →
      (l.map f).getD i 0 = f (l.getD i 0) := by
  intro l
  induction l with
  | nil => intro i h; simp at h
  | cons a l ih =>
      intro i h
      cases i with
      | zero => simp
      | succ n =>
          simp only [List.map_cons, List.getD_cons_succ]
          exact ih n (by simpa using h)

lemma getAcc_length (solve : List ℚ → List ℚ) (pos : List ℚ) (Nx : ℕ)
    (b n0 : ℚ) : (getAcc solve pos Nx b n0).length = pos.length := by
  simp [getAcc]

lemma npMod_nonneg (x b : ℚ) (hb : 0 < b) : 0 ≤ npMod x b := by
  unfold npMod
  have h1 : (⌊x / b⌋ : ℚ) ≤ x / b := Int.floor_le _
  have h2 : b * (⌊x / b⌋ : ℚ) ≤ b * (x / b) :=
    mul_le_mul_of_nonneg_left h1 hb.le
  have h3 : b * (x / b) = x := by field_simp
  linarith

lemma npMod_lt (x b : ℚ) (hb : 0 < b) : npMod x b < b := by
  unfold npMod
  have h1 : x / b < (⌊x / b⌋ : ℚ) + 1 := Int.lt_floor_add_one _
  have h2 : x < ((⌊x / b⌋ : ℚ) + 1) * b := by
    rw [← div_lt_iff₀ hb] at *
    exact h1
  nlinarith

/-! ## Claim theorems -/

/-- C1 counterexample: with `Nx = 2`, `boxsize = 1`, the last Gradient row
(`i = Nx - 1 = 1`) has value `0`, not `+1/dx`, at column `(i+1) mod Nx = 0`:
the first-difference stencil built by `create_matrices` does not wrap. -/
theorem gradient_last_row_no_wrap_counter :
    Gmtx 2 1 1 0 = 0 ∧ (0 : ℚ) ≠ 1 / dxOf 2 1 := by
  constructor
  · norm_num [Gmtx, dxOf]
  · norm_num [dxOf]

/-- C1 amended: for `Nx` at least 2, every row `i` with `i + 1 < Nx` of the
Gradient operator has `-1/dx` at column `i` and `+1/dx` at column `i + 1`,
but the last row `Nx - 1` has only `-1/dx` on the diagonal and `0` at every
other column (in particular at column 0): the stencil does not wrap
periodically. -/
theorem gradient_stencil_no_wrap (Nx : ℕ) (b : ℚ) (h2 : 2 ≤ Nx) :
    (∀ i, i + 1 < Nx → Gmtx Nx b i i = -1 / dxOf Nx b
        ∧ Gmtx Nx b i (i + 1) = 1 / dxOf Nx b)
    ∧ Gmtx Nx b (Nx - 1) (Nx - 1) = -1 / dxOf Nx b
    ∧ (∀ k, k < Nx - 1 → Gmtx Nx b (Nx - 1) k = 0)
    ∧ (∀ i k, i < Nx → k < Nx → k ≠ i → k ≠ i + 1 → Gmtx Nx b i k = 0) := by
  refine ⟨fun i hi => ⟨?_, ?_⟩, ?_, fun k hk => ?_,
    fun i k hi hk hne1 hne2 => ?_⟩
  · rw [Gmtx, if_pos rfl, if_neg (by omega)]; norm_num
  · rw [Gmtx, if_neg (by omega), if_pos rfl]; norm_num
  · rw [Gmtx, if_pos rfl, if_neg (by omega)]; norm_num
  · rw [Gmtx, if_neg (by omega), if_neg (by omega)]; norm_num
  · rw [Gmtx, if_neg (by omega), if_neg (by omega)]; norm_num

/-- C1 witness: the amended gradient statement instantiated at `Nx = 3`,
`boxsize = 1`. -/
theorem gradient_stencil_no_wrap_witness :
    Gmtx 3 1 0 1 = 1 / dxOf 3 1 ∧ Gmtx 3 1 2 0 = 0 :=
  ⟨((gradient_stencil_no_wrap 3 1 (by norm_num)).1 0 (by norm_num)).2,
    (gradient_stencil_no_wrap 3 1 (by norm_num)).2.2.1 0 (by norm_num)⟩

/-- C2: for every nonempty particle ensemble with all positions in
`[0, boxsize)`, the deposited density (linear weights accumulated by
bincount, then scaled by `n0 * boxsize / (N * dx)`) sums to exactly
`n0 * Nx` before the background is subtracted. -/
theorem deposited_charge_total (Nx : ℕ) (b n0 : ℚ) (pos : List ℚ)
    (hNx : 0 < Nx) (hb : 0 < b) (hne : pos ≠ [])
    (hin : ∀ p ∈ pos, 0 ≤ p ∧ p < b) :
    (∑ k in Finset.range Nx, density Nx b n0 pos k) = n0 * (Nx : ℚ) :=
  density_sum Nx b n0 pos hNx hb hne hin

/-- C2 witness: one particle at the origin, `Nx = 2`, `boxsize = 1`,
`n0 = 1`: the density sums to `1 * 2`. -/
theorem deposited_charge_total_witness :
    (∑ k in Finset.range 2, density 2 1 1 [(0 : ℚ)] k) = 1 * (2 : ℚ) :=
  deposited_charge_total 2 1 1 [0] (by norm_num) (by norm_num)
    (by simp) (by intro p hp; simp at hp; subst hp; norm_num)

/-- C3 counterexample: with `Nx = 3`, `boxsize = 1`, `n0 = 1` and one
particle at the origin, the density sums to `3 = n0 * Nx`, which differs
from the claimed `n0 * boxsize = 1`. -/
theorem density_sum_ne_boxsize_counter :
    (∑ k in Finset.range 3, density 3 1 1 [(0 : ℚ)] k) = 3
      ∧ (3 : ℚ) ≠ 1 * 1 := by
  constructor
  · simp [Finset.sum_range_succ, density, rawDensity, bincountAt, jIdx,
      jp1Idx, wLeft, wRight, dxOf]
  · norm_num

/-- C3 amended: the recomputed density sums to `n0 * Nx` (not
`n0 * boxsize`) before the background `n0` is subtracted; the two agree only
when `boxsize = Nx`, i.e. `dx = 1`. -/
theorem density_sum_is_n0_Nx (Nx : ℕ) (b n0 : ℚ) (pos : List ℚ)
    (hNx : 0 < Nx) (hb : 0 < b) (hne : pos ≠ [])
    (hin : ∀ p ∈ pos, 0 ≤ p ∧ p < b) :
    (∑ k in Finset.range Nx, density Nx b n0 pos k) = n0 * (Nx : ℚ) :=
  density_sum Nx b n0 pos hNx hb hne hin

/-- C3 witness: two particles in a box with `Nx = 2`, `boxsize = 3`,
`n0 = 1`: the density sums to `1 * 2`. -/
theorem density_sum_is_n0_Nx_witness :
    (∑ k in Finset.range 2, density 2 3 1 [(0 : ℚ), 1] k) = 1 * (2 : ℚ) :=
  density_sum_is_n0_Nx 2 3 1 [0, 1] (by norm_num) (by norm_num) (by simp)
    (by
      intro p hp
      simp at hp
      rcases hp with h | h <;> subst h <;> norm_num)

/-- C4 counterexample: with `Nx = 2`, `boxsize = 1` and the potential
`phiProbe = (1, 0)`, the grid field `E = -Gmtx phi` sums to `2`, not `0`:
the field does not have zero mean for every potential, because column 0 of
the non-periodic gradient operator sums to `-1/dx`, not `0`. -/
theorem efield_mean_nonzero_counter :
    (∑ i in Finset.range 2, Efield 2 1 phiProbe i) = 2 ∧ (2 : ℚ) ≠ 0 := by
  constructor
  · simp [Finset.sum_range_succ, Efield, Gmtx, dxOf, phiProbe]
  · norm_num

/-- C4 amended: for every potential `phi`, the entries of
`E_grid = -Gmtx phi` sum to `phi 0 / dx` (columns 1..Nx-1 of the gradient
sum to zero but column 0 sums to `-1/dx`); the field has zero mean exactly
when `phi 0 = 0`. -/
theorem efield_sum_eq_phi0_div_dx (Nx : ℕ) (b : ℚ) (phi : ℕ → ℚ)
    (hNx : 0 < Nx) :
    (∑ i in Finset.range Nx, Efield Nx b phi i) = phi 0 / dxOf Nx b := by
  unfold Efield
  rw [Finset.sum_neg_distrib, Finset.sum_comm]
  have hcol : ∀ k ∈ Finset.range Nx,
      (∑ i in Finset.range Nx, Gmtx Nx b i k * phi k)
        = (if k = 0 then (-1 / dxOf Nx b) * phi k else 0) := by
    intro k hk
    rw [← Finset.sum_mul, Gmtx_colsum Nx b k (Finset.mem_range.mp hk)]
    split_ifs <;> norm_num
  rw [Finset.sum_congr rfl hcol]
  have h0 : (∑ k in Finset.range Nx,
      if k = 0 then (-1 / dxOf Nx b) * phi k else 0)
        = (-1 / dxOf Nx b) * phi 0 := by
    rw [Finset.sum_ite_eq']
    simp [Finset.mem_range.mpr hNx]
  rw [h0]
  ring

/-- C4 witness: the amended field-sum statement instantiated at `Nx = 2`,
`boxsize = 1`, `phi = phiProbe`. -/
theorem efield_sum_eq_phi0_div_dx_witness :
    (∑ i in Finset.range 2, Efield 2 1 phiProbe i) = phiProbe 0 / dxOf 2 1 :=
  efield_sum_eq_phi0_div_dx 2 1 phiProbe (by norm_num)

/-- C5: one pass of the driver loop maps particle `i` of `(pos, vel)` to
`(npMod (pos i + dt * vel i) boxsize, vel i + dt * a i)` where `a` is
`getAcc` evaluated at the pre-update positions: acceleration first, then
position advanced with the pre-update velocity, then velocity, then the
modulo wrap. -/
theorem step_update_order (solve : List ℚ → List ℚ) (dt b n0 : ℚ) (Nx : ℕ)
    (pos vel : List ℚ) (i : ℕ) (h1 : i < pos.length) (h2 : i < vel.length) :
    ((stepOnce solve dt b Nx n0 pos vel).1.getD i 0
        = npMod (pos.getD i 0 + dt * vel.getD i 0) b)
    ∧ ((stepOnce solve dt b Nx n0 pos vel).2.getD i 0
        = vel.getD i 0 + dt * (getAcc solve pos Nx b n0).getD i 0) := by
  have hlz : i < (List.zipWith (fun p v => p + dt * v) pos vel).length := by
    rw [List.length_zipWith]
    omega
  have ha : i < (getAcc solve pos Nx b n0).length := by
    rw [getAcc_length]
    exact h1
  constructor
  · show ((List.zipWith (fun p v => p + dt * v) pos vel).map
        (fun p => npMod p b)).getD i 0 = _
    rw [getD_map _ _ i hlz, getD_zipWith _ _ _ i h1 h2]
  · show (List.zipWith (fun v x => v + dt * x) vel
        (getAcc solve pos Nx b n0)).getD i 0 = _
    rw [getD_zipWith _ _ _ i h2 ha]

/-- C5 witness: the step decomposition instantiated on a single particle
with the identity in place of the external solver. -/
theorem step_update_order_witness :
    ((stepOnce (fun l => l) 1 1 1 0 [(0 : ℚ)] [(1 : ℚ)]).1.getD 0 0
        = npMod ((0 : ℚ) + 1 * 1) 1)
    ∧ ((stepOnce (fun l => l) 1 1 1 0 [(0 : ℚ)] [(1 : ℚ)]).2.getD 0 0
        = (1 : ℚ) + 1 * (getAcc (fun l => l) [(0 : ℚ)] 1 1 0).getD 0 0) :=
  step_update_order (fun l => l) 1 1 0 1 [0] [1] 0 (by norm_num) (by norm_num)

/-- C6: after the modulo wrap at the end of a driver step, every particle
position satisfies `0 <= p < boxsize` exactly, however far the raw update
`pos + dt * vel` left the box. -/
theorem step_pos_in_box (solve : List ℚ → List ℚ) (dt n0 : ℚ) (Nx : ℕ)
    (pos vel : List ℚ) (b : ℚ) (hb : 0 < b) :
    ∀ q ∈ (stepOnce solve dt b Nx n0 pos vel).1, 0 ≤ q ∧ q < b := by
  intro q hq
  have hq2 : q ∈ (List.zipWith (fun p v => p + dt * v) pos vel).map
      (fun p => npMod p b) := hq
  obtain ⟨x, _, rfl⟩ := List.mem_map.mp hq2
  exact ⟨npMod_nonneg x b hb, npMod_lt x b hb⟩

/-- C6 witness: a particle whose raw update `1/2 + 1*1 = 3/2` leaves the
unit box is wrapped back into `[0, 1)`. -/
theorem step_pos_in_box_witness :
    (0 : ℚ) ≤ npMod (1/2 + 1 * 1) 1 ∧ npMod (1/2 + 1 * 1) 1 < 1 := by
  refine step_pos_in_box (fun l => l) 1 0 1 [(1/2 : ℚ)] [(1 : ℚ)] 1
    (by norm_num) (npMod (1/2 + 1 * 1) 1) ?_
  show npMod (1/2 + 1 * 1) 1 ∈
    (List.zipWith (fun p v => p + 1 * v) [(1/2 : ℚ)] [(1 : ℚ)]).map
      (fun p => npMod p 1)
  simp

/-- C7 counterexample: with `Nx = 2`, `boxsize = 1`, a particle at
`p = boxsize` gets left-node index `j = 2 = Nx`, which is not inside
`0..Nx-1` and is not node 0: the deposition accumulates its left weight at
the out-of-range index `Nx`, contrary to the claim. -/
theorem boxsize_maps_to_Nx_counter :
    jIdx (dxOf 2 1) 1 = 2
      ∧ ¬(jIdx (dxOf 2 1) 1 < (2 : ℤ))
      ∧ jIdx (dxOf 2 1) 1 ≠ 0 := by
  have h : jIdx (dxOf 2 1) 1 = 2 := by
    norm_num [jIdx, dxOf]
  refine ⟨h, ?_, ?_⟩ <;> rw [h] <;> norm_num

/-- C7 amended: a position exactly at `boxsize` gets the unwrapped left-node
index `j = Nx`, which lies outside `0..Nx-1` (so the bincount accumulation
and the `E_grid[j]` lookup address index `Nx`, not node 0); only the
right-node index `jp1` is reduced mod `Nx` and stays in range. -/
theorem boxsize_edge_index_out_of_range (Nx : ℕ) (b : ℚ) (hNx : 0 < Nx)
    (hb : 0 < b) :
    jIdx (dxOf Nx b) b = (Nx : ℤ)
      ∧ ¬(jIdx (dxOf Nx b) b < (Nx : ℤ))
      ∧ 0 ≤ jp1Idx Nx (dxOf Nx b) b ∧ jp1Idx Nx (dxOf Nx b) b < (Nx : ℤ) := by
  have hNxQ : ((Nx : ℚ)) ≠ 0 := by exact_mod_cast hNx.ne'
  have h1 : b / dxOf Nx b = (Nx : ℚ) := by
    rw [dxOf]
    field_simp
  have h2 : jIdx (dxOf Nx b) b = (Nx : ℤ) := by
    unfold jIdx
    rw [h1, Int.floor_natCast]
  have hz : ((Nx : ℤ)) ≠ 0 := by exact_mod_cast hNx.ne'
  have hp : (0 : ℤ) < (Nx : ℤ) := by exact_mod_cast hNx
  exact ⟨h2, by omega, Int.emod_nonneg _ hz, Int.emod_lt_of_pos _ hp⟩

/-- C7 witness: the amended edge-index statement instantiated at `Nx = 3`,
`boxsize = 1`. -/
theorem boxsize_edge_index_out_of_range_witness :
    jIdx (dxOf 3 1) 1 = (3 : ℤ)
      ∧ ¬(jIdx (dxOf 3 1) 1 < (3 : ℤ))
      ∧ 0 ≤ jp1Idx 3 (dxOf 3 1) 1 ∧ jp1Idx 3 (dxOf 3 1) 1 < (3 : ℤ) :=
  boxsize_edge_index_out_of_range 3 1 (by norm_num) (by norm_num)

/-- C8 counterexample: with `Nx = 2`, `boxsize = 1` (`1/dx^2 = 4`), entry
`(0, 1)` of the Laplacian is `8 = 2/dx^2`, not the claimed `+1/dx^2`: for
`Nx = 2` the sub- and super-diagonal legs coincide with the corner terms and
add up. -/
theorem laplacian_stencil_counter_Nx2 :
    Lmtx 2 1 0 1 = 8 ∧ (8 : ℚ) ≠ 1 / (dxOf 2 1) ^ 2 := by
  constructor
  · norm_num [Lmtx, LmtxNum, dxOf]
  · norm_num [dxOf]

/-- C8 amended: for `Nx` at least 3, every row `i` of the Laplacian equals
exactly the periodic stencil `+1/dx^2` at column `(i-1) mod Nx`, `-2/dx^2`
at column `i`, `+1/dx^2` at column `(i+1) mod Nx` and `0` elsewhere (the two
boundary rows wrap); at `Nx = 2` the two off-diagonal legs coincide and the
entry is `2/dx^2` instead. -/
theorem laplacian_periodic_stencil (Nx : ℕ) (b : ℚ) (h3 : 3 ≤ Nx) (i k : ℕ)
    (hi : i < Nx) (hk : k < Nx) :
    Lmtx Nx b i k = stencilClaim Nx i k / (dxOf Nx b) ^ 2 := by
  rw [Lmtx, LmtxNum_eq_stencilClaim Nx i k h3 hi hk]

/-- C8 witness: the amended Laplacian statement instantiated at `Nx = 3`,
`boxsize = 1`, row 0, column 2 (the wrapped `(0-1) mod 3 = 2` leg). -/
theorem laplacian_periodic_stencil_witness :
    Lmtx 3 1 0 2 = stencilClaim 3 0 2 / (dxOf 3 1) ^ 2 :=
  laplacian_periodic_stencil 3 1 (by norm_num) 0 2 (by norm_num) (by norm_num)

/-- C9 counterexample: the configuration `badCfg` (the source constants with
`dt = -1`) is invalid per the spec, yet the driver loop executes its first
timestep (the loop guard `t < tEnd` holds at `t = 0` and nothing before the
loop inspects the configuration): the program does not fail fast. -/
theorem no_config_validation_counter :
    invalidConfig badCfg ∧ stepsTaken 1 0 badCfg.dt badCfg.tEnd = 1 := by
  constructor
  · exact Or.inr (Or.inr (Or.inr (Or.inl (by norm_num [badCfg]))))
  · norm_num [stepsTaken, badCfg]

/-- C9 amended: `main` performs no configuration validation; for every
configuration, valid or invalid, whose `tEnd` is positive, the simulation
loop executes its first timestep instead of aborting. -/
theorem no_config_validation (c : Config) (hinv : invalidConfig c)
    (ht : 0 < c.tEnd) : stepsTaken 1 0 c.dt c.tEnd = 1 := by
  unfold stepsTaken
  rw [if_pos ht]
  rfl

/-- C9 witness: the invalid configuration `badCfg2` (negative particle
count) still runs a timestep. -/
theorem no_config_validation_witness :
    stepsTaken 1 0 badCfg2.dt badCfg2.tEnd = 1 :=
  no_config_validation badCfg2 (Or.inl (by norm_num [badCfg2]))
    (by norm_num [badCfg2])

/-- C10: the deposit/solve/interpolate computation of `getAcc` returns the
acceleration array and leaves the particle state untouched: the state
component of `getAccEff` is the input state, and the returned array is the
pure function `getAcc` of the input positions. -/
theorem getAcc_frame (solve : List ℚ → List ℚ) (Nx : ℕ) (b n0 : ℚ)
    (pos vel : List ℚ) :
    (getAccEff solve Nx b n0 ⟨pos, vel⟩).2 = ⟨pos, vel⟩
    ∧ (getAccEff solve Nx b n0 ⟨pos, vel⟩).1 = getAcc solve pos Nx b n0 :=
  ⟨rfl, rfl⟩

end PIC
